import Mathlib

/-!
Verification development for the weekly stock-recommendation module
(`stocks.py`).  The four core functions — `compute_signals`,
`target_weights`, `estimate_portfolio_value_usd` / `current_weights`,
`generate_trade_list` — and the orchestrator `run_weekly_recommendation`
are embedded shallowly:

* Prices, quantities and weights are rationals (`ℚ`); the Python floats
  are modelled exactly.  A price that is absent or non-finite (NaN/inf,
  which `np.isfinite` rejects) is `Option.none`.
* A pandas price `DataFrame` is a `Frame`: a row count together with the
  columns, each column an ordered list (oldest first) of optional prices.
  All DataFrame operations used by the code are column-wise, plus the
  row-count test, so this representation is exact.
* A Python `dict` is an insertion-ordered association list: assigning an
  existing key overwrites it in place, a new key is appended (`dinsert`).
* Python's `sorted` is a stable sort and is modelled by Mathlib's stable
  `List.insertionSort`.  (`DataFrame.sort_values` is modelled the same
  way; see the note at `compute_signals`.)
* Python's `round(x, n)` is round-half-to-even at `n` decimal digits,
  modelled exactly on `ℚ` by `pyRound`.
* `vol = std * sqrt(252)` and `score = momentum / vol` are irrational;
  a signal row therefore carries the annualised *variance* `varAnn`
  (so `vol = Real.sqrt varAnn`), and the sort uses the rational key
  `sign(momentum) * momentum^2 / varAnn`, proved order-isomorphic to the
  real score in `sortKey_le_iff`.
* The data model promises positive prices when present; on inputs with a
  zero price Python would produce `inf` where `ℚ` division yields junk,
  but no theorem below depends on the value of a momentum computed from
  a zero price.
-/

/-- The reserved cash pseudo-ticker (`CASH_TICKER` in `stocks.py`). -/
def CASH_TICKER : String := "CASH"

/-- Momentum lookback in trading days (module constant, about six months). -/
def MOMENTUM_LOOKBACK_DAYS : ℕ := 126

/-- Volatility lookback in trading days (module constant, about three months). -/
def VOL_LOOKBACK_DAYS : ℕ := 63

/-- Per-position cap (module constant `MAX_SINGLE_WEIGHT = 0.20`). -/
def MAX_SINGLE_WEIGHT : ℚ := 1/5

/-- Minimum price floor (module constant `MIN_PRICE = 5.0`). -/
def MIN_PRICE : ℚ := 5

/-- Default portfolio size (module constant `TOP_N = 8`). -/
def TOP_N : ℕ := 8

/-- Python-dict assignment `d[k] = v` on an insertion-ordered association
list: an existing key keeps its position and gets the new value, a fresh
key is appended at the end. -/
def dinsert (k : String) (v : ℚ) : List (String × ℚ) → List (String × ℚ)
  | [] => [(k, v)]
  | p :: d => if p.1 = k then (k, v) :: d else p :: dinsert k v d

/-- Python-dict lookup `d.get(k)`: the value stored at `k`, if any. -/
def dget {α : Type} : List (String × α) → String → Option α
  | [], _ => none
  | p :: d, k => if p.1 = k then some p.2 else dget d k

/-- Round-half-to-even to the nearest integer (the rounding used by
Python's builtin `round`). -/
def roundHalfEven (q : ℚ) : ℤ :=
  if q - ⌊q⌋ < 1/2 then ⌊q⌋
  else if (1:ℚ)/2 < q - ⌊q⌋ then ⌊q⌋ + 1
  else if ⌊q⌋ % 2 = 0 then ⌊q⌋ else ⌊q⌋ + 1

/-- Python's `round(q, n)` where `s = 10 ^ n`. -/
def pyRound (s : ℕ) (q : ℚ) : ℚ := (roundHalfEven (q * s) : ℚ) / s

/-- A pandas price table: number of rows (dates) and the columns, one per
ticker, each an ordered list of optional adjusted-close prices. -/
structure Frame where
  nrows : ℕ
  cols : List (String × List (Option ℚ))
deriving DecidableEq

/-- `series.ffill().iloc[-1]`: the last non-missing value of a column,
if there is one. -/
def lastFfill (c : List (Option ℚ)) : Option ℚ :=
  c.foldl (fun acc o => match o with | some v => some v | none => acc) none

/-- Step 1 of `compute_signals` (data hygiene): keep the columns whose
forward-filled latest price is at least `pmin`, then drop every column
that contains any missing value (`dropna(axis=1, how="any")`). -/
def step1 (pmin : ℚ) (F : Frame) : List (String × List (Option ℚ)) :=
  (F.cols.filter (fun tc =>
      match lastFfill tc.2 with
      | some p => decide (pmin ≤ p)
      | none => false)).filter
    (fun tc => tc.2.all Option.isSome)

/-- One row of the signal table.  `varAnn` is the annualised variance,
`252 * (sample variance of the last Lv daily returns)`; the code's `vol`
column is `Real.sqrt varAnn` and its `score` is
`momentum / Real.sqrt varAnn` (see `score`). -/
structure SignalRow where
  ticker : String
  momentum : ℚ
  varAnn : ℚ
deriving DecidableEq

/-- The real-valued score `momentum / vol` of a signal row. -/
noncomputable def score (r : SignalRow) : ℝ :=
  (r.momentum : ℝ) / Real.sqrt (r.varAnn : ℝ)

/-- Rational sort key realising exactly the order of `score` on rows with
positive `varAnn` (`sortKey_le_iff`): `sign(momentum) * momentum^2 / varAnn`
is the image of the score under the strictly increasing map `s ↦ s * |s|`. -/
def sortKey (r : SignalRow) : ℚ :=
  (if r.momentum < 0 then -1 else 1) * r.momentum ^ 2 / r.varAnn

/-- `prices.pct_change().dropna()` for one complete column: the daily
returns `v_i / v_(i-1) - 1` (the first, undefined row is dropped). -/
def dailyRets (vals : List ℚ) : List ℚ :=
  (vals.tail.zip vals).map (fun p => p.1 / p.2 - 1)

/-- Pandas sample variance (`ddof = 1`) of a list of returns; meaningful
only for two or more observations (the caller filters shorter lists,
where pandas would produce NaN). -/
def sampleVar (l : List ℚ) : ℚ :=
  (l.map (fun r => (r - l.sum / (l.length : ℚ)) ^ 2)).sum / ((l.length : ℚ) - 1)

/-- The signal row of one complete price column, if the row survives the
`dropna` (volatility present and nonzero).  Mirrors the per-column content
of `compute_signals`: momentum `prices.iloc[-1]/prices.iloc[-Lm] - 1`,
daily returns over the full filled series, sample standard deviation of
the last `Lv` returns, annualised by `sqrt(252)` (hence variance times
252 in `varAnn`). -/
def mkSignalRow (Lm Lv : ℕ) (tc : String × List (Option ℚ)) : Option SignalRow :=
  let vals : List ℚ := tc.2.map (fun o => o.getD 0)
  let mom : ℚ :=
    vals.getD (vals.length - 1) 0 / vals.getD (if Lm = 0 then 0 else vals.length - Lm) 0 - 1
  let rets : List ℚ := dailyRets vals
  let rtail := rets.drop (rets.length - Lv)
  if rtail.length < 2 then none
  else if sampleVar rtail = 0 then none
  else some ⟨tc.1, mom, 252 * sampleVar rtail⟩

/-- `compute_signals` of `stocks.py`, with the module constants
`MOMENTUM_LOOKBACK_DAYS`, `VOL_LOOKBACK_DAYS`, `MIN_PRICE` passed as the
parameters `Lm`, `Lv`, `pmin` (the spec's SignalEngine inputs).  The final
`sort_values("score", ascending=False)` is modelled as a stable sort by
descending score; pandas' default sort is only guaranteed stable on the
small frames it is given here.  Column filtering does not change the row
count, so `len(prices)` stays `F.nrows`. -/
def compute_signals (Lm Lv : ℕ) (pmin : ℚ) (F : Frame) : List SignalRow :=
  let cols2 := step1 pmin F
  if cols2.length = 0 then []
  else if F.nrows < max Lm Lv + 5 then []
  else
    List.insertionSort (fun a b => sortKey b ≤ sortKey a)
      (cols2.filterMap (mkSignalRow Lm Lv))

/-- `estimate_portfolio_value_usd`: cash counts at face value, an
instrument counts at `shares * price` whenever its price is present
(finite); `np.isfinite` is the only check — the sign of the price is not
inspected. -/
def estimate_portfolio_value_usd (holdings : List (String × ℚ))
    (prices : String → Option ℚ) : ℚ :=
  holdings.foldl (fun value p =>
    if p.1 = CASH_TICKER then value + p.2
    else
      match prices p.1 with
      | some px => value + p.2 * px
      | none => value) 0

/-- Loop body of `current_weights` for one holdings entry.  Cash gets
`shares / total` when the total is positive and `0` otherwise; an
instrument gets `shares * price / total` only when its price is present
and the total is positive (otherwise no entry is written). -/
def cwStep (prices : String → Option ℚ) (total : ℚ)
    (w : List (String × ℚ)) (p : String × ℚ) : List (String × ℚ) :=
  if p.1 = CASH_TICKER then dinsert p.1 (if 0 < total then p.2 / total else 0) w
  else
    match prices p.1 with
    | some px => if 0 < total then dinsert p.1 (p.2 * px / total) w else w
    | none => w

/-- `current_weights`: the total portfolio value together with the weight
dict built by one pass over the holdings. -/
def current_weights (holdings : List (String × ℚ))
    (last_prices : String → Option ℚ) : ℚ × List (String × ℚ) :=
  let total := estimate_portfolio_value_usd holdings last_prices
  (total, holdings.foldl (cwStep last_prices total) [])

/-- `target_weights`: equal weight over the first `n = min(|selected|, top_n)`
selected tickers, capped at `max_single_weight`, renormalised within the
equity slice by `min(1, alloc_sum)`, remainder to cash. -/
def target_weights (selected : List String) (max_single_weight : ℚ)
    (top_n : ℕ) : List (String × ℚ) :=
  if selected.length = 0 then [(CASH_TICKER, 1)]
  else
    let n := min selected.length top_n
    let base : ℚ := 1 / (n : ℚ)
    let capped : List ℚ := List.replicate n (min base max_single_weight)
    let alloc_sum : ℚ := capped.sum
    if alloc_sum ≤ 0 then [(CASH_TICKER, 1)]
    else
      let pairs := ((selected.take n).zip capped).map
        (fun p => (p.1, p.2 / alloc_sum * min 1 alloc_sum))
      let tw := pairs.foldl (fun d p => dinsert p.1 p.2 d) []
      let cash : ℚ := max 0 (1 - (tw.map Prod.snd).sum)
      dinsert CASH_TICKER cash tw

/-- One trade instruction as emitted by `generate_trade_list`; the dollar
delta, reference price and share estimate are stored rounded exactly as
the code rounds them for the payload. -/
structure Trade where
  ticker : String
  action : String
  delta_usd : ℚ
  est_price : ℚ
  est_shares : ℚ
deriving DecidableEq

/-- Sort-key group of a trade: sells first (`0`), buys second (`1`). -/
def tradeGroup (tr : Trade) : ℕ := if tr.action = "SELL" then 0 else 1

/-- The comparison used by the final `sorted` of `generate_trade_list`:
the Python key `(0 if SELL else 1, -abs(delta_usd))` compared
lexicographically. -/
def tradeLe (a b : Trade) : Prop :=
  tradeGroup a < tradeGroup b ∨
    (tradeGroup a = tradeGroup b ∧ |b.delta_usd| ≤ |a.delta_usd|)

instance instDecTradeLe : DecidableRel tradeLe := fun a b => by
  unfold tradeLe; infer_instance

/-- The loop body of `generate_trade_list` for one candidate ticker:
skip when `|delta_usd| < min_trade_usd`, skip when the price is missing
(non-finite) or non-positive, otherwise emit the instruction. -/
def mkTrade (cw target_w : List (String × ℚ)) (total : ℚ)
    (prices : String → Option ℚ) (min_trade_usd : ℚ) (t : String) : Option Trade :=
  let cur_w := (dget cw t).getD 0
  let tgt_w := (dget target_w t).getD 0
  let delta_usd := (tgt_w - cur_w) * total
  if |delta_usd| < min_trade_usd then none
  else
    match prices t with
    | none => none
    | some px =>
      if px ≤ 0 then none
      else
        some ⟨t, if 0 < delta_usd then "BUY" else "SELL",
          pyRound 100 delta_usd, pyRound 100 px, pyRound 10000 (delta_usd / px)⟩

/-- `generate_trade_list`: current weights, candidate tickers (union of
weight keys, cash discarded, iterated in ascending order), per-ticker
instructions, then the stable sort that puts sells first and larger
magnitudes earlier. -/
def generate_trade_list (holdings : List (String × ℚ))
    (last_prices : String → Option ℚ) (target_w : List (String × ℚ))
    (min_trade_usd : ℚ) : ℚ × List (String × ℚ) × List Trade :=
  let tc := current_weights holdings last_prices
  let tickers := ((tc.2.map Prod.fst ++ target_w.map Prod.fst).dedup).filter
    (fun t => decide (t ≠ CASH_TICKER))
  let trades := (List.insertionSort (fun a b : String => a ≤ b) tickers).filterMap
    (mkTrade tc.2 target_w tc.1 last_prices min_trade_usd)
  (tc.1, tc.2, List.insertionSort tradeLe trades)

/-- The error message of the no-data payload in `run_weekly_recommendation`. -/
def NO_DATA_ERROR : String := "No price data returned. yfinance can fail or rate-limit."

/-- The fixed informational notes of a successful payload. -/
def NOTES : List String :=
  ["This is a naive momentum/volatility screen. It is not a guarantee of performance.",
   "Trade list ignores taxes, spreads, slippage, liquidity, corporate actions, and broker constraints.",
   "If you want auto-trading, add broker integration plus hard risk controls and testing."]

/-- A persisted recommendation payload: either the no-data error snapshot
(timestamp and error tag only — no selection, no trades) or a full report. -/
inductive Payload where
  | noData (ts : String) (error : String)
  | report (ts : String) (universe_size : ℕ) (selected : List String)
      (signals_top : List SignalRow) (portfolio_value_est : ℚ)
      (cur_w : List (String × ℚ)) (tgt_w : List (String × ℚ))
      (trades : List Trade) (notes : List String)
deriving DecidableEq

/-- `prices.ffill().iloc[-1]` as a label-indexed series: the last known
price of a ticker, `none` when the ticker has no column or the column is
all missing. -/
def Frame.lastRow (F : Frame) : String → Option ℚ :=
  fun t => (dget F.cols t).bind lastFfill

/-- `run_weekly_recommendation` with its collaborators made explicit:
settings (`universe`, `top_n`, `max_single_weight`), the holdings read
from the store, the run timestamp, and the fetched price history.  The
second component collects the payloads handed to `save_recommendation`
(one call on each path).  A pandas frame is `empty` when either axis has
length zero. -/
def run_weekly_recommendation (univ : List String) (top_n : ℕ)
    (max_single_weight : ℚ) (holdings : List (String × ℚ)) (ts : String)
    (prices : Frame) : Payload × List Payload :=
  if prices.nrows = 0 ∨ prices.cols.length = 0 then
    let payload := Payload.noData ts NO_DATA_ERROR
    (payload, [payload])
  else
    let signals := compute_signals MOMENTUM_LOOKBACK_DAYS VOL_LOOKBACK_DAYS MIN_PRICE prices
    let selected := (signals.map SignalRow.ticker).take top_n
    let tw := target_weights selected max_single_weight top_n
    let gt := generate_trade_list holdings prices.lastRow tw 25
    let payload := Payload.report ts univ.length selected (signals.take 15)
      (pyRound 100 gt.1) (gt.2.1.map (fun p => (p.1, pyRound 10000 p.2)))
      (tw.map (fun p => (p.1, pyRound 10000 p.2))) gt.2.2 NOTES
    (payload, [payload])

/-- The portfolio value as the specification words it: cash plus
`quantity * price` over exactly the instruments with a finite and
*positive* price (claim C2's reading; the code checks only finiteness). -/
def specTotalValue (holdings : List (String × ℚ))
    (prices : String → Option ℚ) : ℚ :=
  (holdings.map (fun p =>
    if p.1 = CASH_TICKER then p.2
    else
      match prices p.1 with
      | some px => if 0 < px then p.2 * px else 0
      | none => 0)).sum

/-- The step-1 window condition as claim C3 words it: no missing value in
the trailing window of `max Lm Lv + 1` observations. -/
def windowComplete (Lm Lv : ℕ) (c : List (Option ℚ)) : Bool :=
  (c.drop (c.length - (max Lm Lv + 1))).all Option.isSome

/-! ### Dictionary lemmas -/

theorem dinsert_of_not_mem {k : String} {v : ℚ} {d : List (String × ℚ)}
    (h : k ∉ d.map Prod.fst) : dinsert k v d = d ++ [(k, v)] := by
  induction d with
  | nil => rfl
  | cons p d ih =>
    simp only [List.map_cons, List.mem_cons] at h
    push_neg at h
    rw [dinsert, if_neg (Ne.symm h.1), List.cons_append, ih h.2]

theorem foldl_dinsert_eq :
    ∀ (ps acc : List (String × ℚ)), ((acc ++ ps).map Prod.fst).Nodup →
      ps.foldl (fun d p => dinsert p.1 p.2 d) acc = acc ++ ps := by
  intro ps
  induction ps with
  | nil => intro acc _; simp
  | cons p ps ih =>
    intro acc h
    have hfresh : p.1 ∉ acc.map Prod.fst := by
      intro hm
      have hdisj := List.disjoint_of_nodup_append (by simpa using h)
      exact hdisj hm (by simp)
    have hstep : dinsert p.1 p.2 acc = acc ++ [p] := by
      rw [dinsert_of_not_mem hfresh]
    rw [List.foldl_cons, hstep, ih (acc ++ [p]) (by simpa using h)]
    simp

theorem dget_dinsert_ne {k t : String} (v : ℚ) (d : List (String × ℚ))
    (h : t ≠ k) : dget (dinsert k v d) t = dget d t := by
  induction d with
  | nil => simp [dinsert, dget, Ne.symm h]
  | cons p d ih =>
    by_cases hp : p.1 = k
    · rw [dinsert, if_pos hp, dget, if_neg (by rw [hp] at *; exact Ne.symm h), dget,
        if_neg (fun e => h (by rw [← e, hp]))]
    · rw [dinsert, if_neg hp, dget, dget]
      by_cases hpt : p.1 = t
      · simp [hpt]
      · simp only [hpt, if_false]
        exact ih

theorem dget_map_const {l : List String} {t : String} (v0 : ℚ) (h : t ∈ l) :
    dget (l.map (fun s => (s, v0))) t = some v0 := by
  induction l with
  | nil => cases h
  | cons s l ih =>
    by_cases hs : s = t
    · simp [dget, hs]
    · have : t ∈ l := by
        rcases List.mem_cons.mp h with h1 | h1
        · exact absurd h1.symm hs
        · exact h1
      simp only [List.map_cons, dget, if_neg hs]
      exact ih this

theorem dget_append_of_mem {l l2 : List (String × ℚ)} {t : String}
    (h : t ∈ l.map Prod.fst) : dget (l ++ l2) t = dget l t := by
  induction l with
  | nil => simp at h
  | cons p l ih =>
    rw [List.map_cons] at h
    by_cases hp : p.1 = t
    · simp [dget, hp]
    · simp only [List.cons_append, dget, if_neg hp]
      refine ih ?_
      rcases List.mem_cons.mp h with h1 | h1
      · exact absurd h1.symm hp
      · exact h1

theorem zip_replicate_eq_map {α : Type} (c : ℚ) :
    ∀ (l : List α), l.zip (List.replicate l.length c) = l.map (fun t => (t, c))
  | [] => rfl
  | a :: l => by
    simp only [List.length_cons, List.replicate_succ, List.zip_cons_cons, List.map_cons]
    rw [zip_replicate_eq_map c l]

theorem zip_replicate_eq_map_of_len {α : Type} (c : ℚ) (l : List α) (n : ℕ)
    (h : l.length = n) : l.zip (List.replicate n c) = l.map (fun t => (t, c)) := by
  subst h
  exact zip_replicate_eq_map c l

theorem map_pair_div (L : List String) (c0 A B : ℚ) :
    List.map (fun p => (p.1, p.2 / A * B)) (List.map (fun t => (t, c0)) L) =
      List.map (fun t => (t, c0 / A * B)) L := by
  rw [List.map_map]
  rfl

theorem map_fst_pair (L : List String) (c0 : ℚ) :
    List.map Prod.fst (List.map (fun t => (t, c0)) L) = L := by
  rw [List.map_map]
  exact List.map_id _

theorem map_snd_pair (L : List String) (c0 : ℚ) :
    List.map Prod.snd (List.map (fun t => (t, c0)) L) = List.replicate L.length c0 := by
  rw [List.map_map]
  exact List.map_const' L c0

/-! ### AllocationBuilder: closed form of the main branch -/

theorem target_weights_eq (selected : List String) (C : ℚ) (top_n : ℕ)
    (hne : selected.length ≠ 0) (hC0 : 0 < C) (htop : 1 ≤ top_n)
    (hnd : selected.Nodup) (hcash : CASH_TICKER ∉ selected) :
    target_weights selected C top_n =
      ((selected.take (min selected.length top_n)).map
        (fun t => (t, min (1/((min selected.length top_n : ℕ) : ℚ)) C))) ++
      [(CASH_TICKER,
        1 - ((min selected.length top_n : ℕ) : ℚ) * min (1/((min selected.length top_n : ℕ) : ℚ)) C)] := by
  have hn1 : 1 ≤ min selected.length top_n :=
    le_min (Nat.one_le_iff_ne_zero.mpr hne) htop
  have hnQ : (0:ℚ) < ((min selected.length top_n : ℕ) : ℚ) := by exact_mod_cast hn1
  have hc0pos : 0 < min (1/((min selected.length top_n : ℕ) : ℚ)) C :=
    lt_min (by positivity) hC0
  have hsum : (List.replicate (min selected.length top_n)
      (min (1/((min selected.length top_n : ℕ) : ℚ)) C)).sum =
      ((min selected.length top_n : ℕ) : ℚ) * min (1/((min selected.length top_n : ℕ) : ℚ)) C := by
    rw [List.sum_replicate, nsmul_eq_mul]
  have hallocpos : 0 < ((min selected.length top_n : ℕ) : ℚ) *
      min (1/((min selected.length top_n : ℕ) : ℚ)) C := mul_pos hnQ hc0pos
  have halloc_le1 : ((min selected.length top_n : ℕ) : ℚ) *
      min (1/((min selected.length top_n : ℕ) : ℚ)) C ≤ 1 := by
    calc ((min selected.length top_n : ℕ) : ℚ) * min (1/((min selected.length top_n : ℕ) : ℚ)) C
        ≤ ((min selected.length top_n : ℕ) : ℚ) * (1/((min selected.length top_n : ℕ) : ℚ)) :=
          mul_le_mul_of_nonneg_left (min_le_left _ _) (le_of_lt hnQ)
      _ = 1 := by field_simp
  have htake_len : (selected.take (min selected.length top_n)).length =
      min selected.length top_n := by
    rw [List.length_take]
    exact min_eq_left (min_le_left _ _)
  have htake_nodup : (selected.take (min selected.length top_n)).Nodup :=
    List.Nodup.sublist (List.take_sublist _ _) hnd
  have htake_cash : CASH_TICKER ∉ selected.take (min selected.length top_n) :=
    fun hm => hcash (List.take_subset _ _ hm)
  have hval : (min (1/((min selected.length top_n : ℕ) : ℚ)) C) /
      (((min selected.length top_n : ℕ) : ℚ) * min (1/((min selected.length top_n : ℕ) : ℚ)) C) *
      min 1 (((min selected.length top_n : ℕ) : ℚ) *
        min (1/((min selected.length top_n : ℕ) : ℚ)) C) =
      min (1/((min selected.length top_n : ℕ) : ℚ)) C := by
    rw [min_eq_right halloc_le1]
    exact div_mul_cancel₀ _ (ne_of_gt hallocpos)
  have hcashval : max 0 (1 - ((min selected.length top_n : ℕ) : ℚ) *
      min (1/((min selected.length top_n : ℕ) : ℚ)) C) =
      1 - ((min selected.length top_n : ℕ) : ℚ) *
        min (1/((min selected.length top_n : ℕ) : ℚ)) C :=
    max_eq_right (sub_nonneg.mpr halloc_le1)
  unfold target_weights
  rw [if_neg hne]
  simp only [hsum]
  rw [if_neg (not_le.mpr hallocpos)]
  rw [zip_replicate_eq_map_of_len _ _ _ htake_len]
  rw [map_pair_div]
  simp only [hval]
  rw [foldl_dinsert_eq _ [] (by rw [List.nil_append, map_fst_pair]; exact htake_nodup)]
  rw [List.nil_append, map_snd_pair, htake_len, List.sum_replicate, nsmul_eq_mul]
  rw [hcashval]
  refine dinsert_of_not_mem ?_
  rw [map_fst_pair]
  exact htake_cash

theorem alloc_le_one (n : ℕ) (C : ℚ) (hn : 1 ≤ n) :
    (n : ℚ) * min (1/(n : ℚ)) C ≤ 1 := by
  have hnQ : (0:ℚ) < (n : ℚ) := by exact_mod_cast hn
  calc (n : ℚ) * min (1/(n : ℚ)) C
      ≤ (n : ℚ) * (1/(n : ℚ)) := mul_le_mul_of_nonneg_left (min_le_left _ _) (le_of_lt hnQ)
    _ = 1 := by field_simp

/-- Claim C1: for every selection (a ranked list of instruments: no
duplicates, cash pseudo-ticker excluded), every per-position cap
`C ∈ (0,1]` and every `top_n ≥ 1`, the weight vector returned by
`target_weights`, its cash entry included, sums to 1 within `1e-9`
(in exact rational arithmetic it sums to exactly 1). -/
theorem c1_target_weights_sum_one (selected : List String) (C : ℚ) (top_n : ℕ)
    (hC0 : 0 < C) (hC1 : C ≤ 1) (htop : 1 ≤ top_n)
    (hnd : selected.Nodup) (hcash : CASH_TICKER ∉ selected) :
    |((target_weights selected C top_n).map Prod.snd).sum - 1| ≤ 1/1000000000 := by
  have hsum : ((target_weights selected C top_n).map Prod.snd).sum = 1 := by
    by_cases hne : selected.length = 0
    · unfold target_weights
      rw [if_pos hne]
      simp
    · rw [target_weights_eq selected C top_n hne hC0 htop hnd hcash]
      have hlen : (selected.take (min selected.length top_n)).length =
          min selected.length top_n := by
        rw [List.length_take]
        exact min_eq_left (min_le_left _ _)
      rw [List.map_append, List.sum_append, map_snd_pair, hlen, List.sum_replicate,
        nsmul_eq_mul, List.map_cons, List.map_nil, List.sum_cons, List.sum_nil]
      ring
  rw [hsum]
  norm_num

/-- Witness for C1 at the spec's Scenario B: three instruments, cap `0.2`,
`top_n = 5`; each weight is `0.2` and cash absorbs `0.4`, so the sum is 1. -/
theorem c1_witness :
    ((0:ℚ) < 1/5 ∧ (1/5:ℚ) ≤ 1 ∧ 1 ≤ 5 ∧ (["AAA","BBB","CCC"] : List String).Nodup ∧
      CASH_TICKER ∉ (["AAA","BBB","CCC"] : List String)) ∧
    |((target_weights ["AAA","BBB","CCC"] (1/5) 5).map Prod.snd).sum - 1| ≤ 1/1000000000 :=
  ⟨⟨by norm_num, by norm_num, by norm_num, by decide, by decide⟩,
   c1_target_weights_sum_one ["AAA","BBB","CCC"] (1/5) 5 (by norm_num) (by norm_num)
     (by norm_num) (by decide) (by decide)⟩

/-- Claim C10: for a non-empty selection (no duplicates, cash excluded),
cap `C ∈ (0,1]` and `top_n ≥ 1`, with `n = min(|selection|, top_n)` the
capped sum `n * min(1/n, C)` never exceeds 1, so the renormalisation in
`target_weights` is the identity: each of the first `n` selected
instruments receives exactly `min(1/n, C)`, which never exceeds the cap. -/
theorem c10_target_weights_cap (selected : List String) (C : ℚ) (top_n : ℕ)
    (hne : selected.length ≠ 0) (hC0 : 0 < C) (hC1 : C ≤ 1) (htop : 1 ≤ top_n)
    (hnd : selected.Nodup) (hcash : CASH_TICKER ∉ selected) :
    ((min selected.length top_n : ℕ) : ℚ) *
        min (1/((min selected.length top_n : ℕ) : ℚ)) C ≤ 1 ∧
    ∀ t ∈ selected.take (min selected.length top_n),
      dget (target_weights selected C top_n) t =
        some (min (1/((min selected.length top_n : ℕ) : ℚ)) C) ∧
      min (1/((min selected.length top_n : ℕ) : ℚ)) C ≤ C := by
  have hn1 : 1 ≤ min selected.length top_n :=
    le_min (Nat.one_le_iff_ne_zero.mpr hne) htop
  refine ⟨alloc_le_one _ C hn1, ?_⟩
  intro t ht
  refine ⟨?_, min_le_right _ _⟩
  rw [target_weights_eq selected C top_n hne hC0 htop hnd hcash]
  rw [dget_append_of_mem (by rw [map_fst_pair]; exact ht)]
  exact dget_map_const _ ht

/-- Witness for C10 at Scenario B: `n = 3`, `base = 1/3 > 0.2`, every
instrument weight is exactly `0.2 = min(1/3, 0.2)`. -/
theorem c10_witness :
    ((["AAA","BBB","CCC"] : List String).length ≠ 0 ∧ (0:ℚ) < 1/5 ∧ (1/5:ℚ) ≤ 1 ∧
      1 ≤ 5 ∧ (["AAA","BBB","CCC"] : List String).Nodup ∧
      CASH_TICKER ∉ (["AAA","BBB","CCC"] : List String)) ∧
    (((min (["AAA","BBB","CCC"] : List String).length 5 : ℕ) : ℚ) *
        min (1/((min (["AAA","BBB","CCC"] : List String).length 5 : ℕ) : ℚ)) (1/5) ≤ 1 ∧
      ∀ t ∈ (["AAA","BBB","CCC"] : List String).take
          (min (["AAA","BBB","CCC"] : List String).length 5),
        dget (target_weights ["AAA","BBB","CCC"] (1/5) 5) t =
          some (min (1/((min (["AAA","BBB","CCC"] : List String).length 5 : ℕ) : ℚ)) (1/5)) ∧
        min (1/((min (["AAA","BBB","CCC"] : List String).length 5 : ℕ) : ℚ)) (1/5) ≤ 1/5) :=
  ⟨⟨by decide, by norm_num, by norm_num, by norm_num, by decide, by decide⟩,
   c10_target_weights_cap ["AAA","BBB","CCC"] (1/5) 5 (by decide) (by norm_num)
     (by norm_num) (by norm_num) (by decide) (by decide)⟩

/-! ### PortfolioDiffer: portfolio value -/

theorem foldl_value_eq (prices : String → Option ℚ) :
    ∀ (hs : List (String × ℚ)) (acc : ℚ),
      hs.foldl (fun value p =>
        if p.1 = CASH_TICKER then value + p.2
        else
          match prices p.1 with
          | some px => value + p.2 * px
          | none => value) acc =
      acc + (hs.map (fun p =>
        if p.1 = CASH_TICKER then p.2
        else
          match prices p.1 with
          | some px => p.2 * px
          | none => 0)).sum := by
  intro hs
  induction hs with
  | nil => intro acc; simp
  | cons p hs ih =>
    intro acc
    rw [List.foldl_cons, ih, List.map_cons, List.sum_cons]
    by_cases hc : p.1 = CASH_TICKER
    · rw [if_pos hc, if_pos hc]
      ring
    · rw [if_neg hc, if_neg hc]
      cases hp : prices p.1 with
      | none => dsimp only; ring
      | some px => dsimp only; ring

theorem estimate_eq_sum (holdings : List (String × ℚ)) (prices : String → Option ℚ) :
    estimate_portfolio_value_usd holdings prices =
      (holdings.map (fun p =>
        if p.1 = CASH_TICKER then p.2
        else
          match prices p.1 with
          | some px => p.2 * px
          | none => 0)).sum := by
  unfold estimate_portfolio_value_usd
  rw [foldl_value_eq, zero_add]

/-- Claim C2 counterexample: the code includes any *finite* price in the
valuation without checking its sign, so with a (degenerate) negative price
of `-10` for one held share and `100` of cash the computed total is `90`,
not the `100` the claim's finite-and-positive filter would give. -/
theorem c2_counterexample :
    estimate_portfolio_value_usd [("X", 1), ("CASH", 100)]
        (fun t => if t = "X" then some (-10) else none) ≠
      specTotalValue [("X", 1), ("CASH", 100)]
        (fun t => if t = "X" then some (-10) else none) := by
  norm_num [estimate_portfolio_value_usd, specTotalValue, CASH_TICKER]
  decide

/-- Claim C2 amended: the total equals cash plus `quantity * price` over
exactly the held instruments whose price is present (finite); a missing or
non-finite price contributes nothing, but a non-positive finite price is
*not* excluded — it contributes with its sign. -/
theorem c2_amended_portfolio_value (holdings : List (String × ℚ))
    (prices : String → Option ℚ) :
    estimate_portfolio_value_usd holdings prices =
      (holdings.map (fun p =>
        if p.1 = CASH_TICKER then p.2
        else
          match prices p.1 with
          | some px => p.2 * px
          | none => 0)).sum :=
  estimate_eq_sum holdings prices

/-- Witness for C2 (amended) at a concrete portfolio. -/
theorem c2_witness :
    estimate_portfolio_value_usd [("X", 2), ("CASH", 50)]
        (fun t => if t = "X" then some 10 else none) =
      ([("X", 2), ("CASH", 50)].map (fun p =>
        if p.1 = CASH_TICKER then p.2
        else
          match (fun t => if t = "X" then some (10:ℚ) else none) p.1 with
          | some px => p.2 * px
          | none => 0)).sum :=
  c2_amended_portfolio_value [("X", 2), ("CASH", 50)]
    (fun t => if t = "X" then some 10 else none)

theorem dinsert_values_mem {k : String} {v0 : ℚ} {d : List (String × ℚ)} {v : ℚ}
    (h : v ∈ (dinsert k v0 d).map Prod.snd) : v = v0 ∨ v ∈ d.map Prod.snd := by
  induction d with
  | nil =>
    simp only [dinsert, List.map_cons, List.map_nil, List.mem_singleton] at h
    exact Or.inl h
  | cons p d ih =>
    by_cases hp : p.1 = k
    · rw [dinsert, if_pos hp] at h
      rcases List.mem_cons.mp h with h1 | h1
      · exact Or.inl h1
      · exact Or.inr (List.mem_cons_of_mem _ h1)
    · rw [dinsert, if_neg hp] at h
      rcases List.mem_cons.mp h with h1 | h1
      · exact Or.inr (h1 ▸ List.mem_cons_self _ _)
      · rcases ih h1 with h2 | h2
        · exact Or.inl h2
        · exact Or.inr (List.mem_cons_of_mem _ h2)

theorem cw_fold_zero (prices : String → Option ℚ) (total : ℚ) (ht : ¬ 0 < total) :
    ∀ (hs acc : List (String × ℚ)), (∀ v ∈ acc.map Prod.snd, v = 0) →
      ∀ v ∈ (hs.foldl (cwStep prices total) acc).map Prod.snd, v = 0 := by
  intro hs
  induction hs with
  | nil => intro acc hacc v hv; exact hacc v hv
  | cons p hs ih =>
    intro acc hacc v hv
    rw [List.foldl_cons] at hv
    refine ih _ ?_ v hv
    intro u hu
    by_cases hc : p.1 = CASH_TICKER
    · rw [cwStep, if_pos hc, if_neg ht] at hu
      rcases dinsert_values_mem hu with h1 | h1
      · exact h1
      · exact hacc u h1
    · rcases hp : prices p.1 with _ | px
      · have hstep : cwStep prices total acc p = acc := by
          rw [cwStep, if_neg hc, hp]
        rw [hstep] at hu
        exact hacc u hu
      · have hstep : cwStep prices total acc p = acc := by
          rw [cwStep, if_neg hc, hp]
          show (if 0 < total then dinsert p.1 (p.2 * px / total) acc else acc) = acc
          rw [if_neg ht]
        rw [hstep] at hu
        exact hacc u hu

theorem cw_fold_sum (prices : String → Option ℚ) (total : ℚ) (ht : 0 < total) :
    ∀ (hs acc : List (String × ℚ)), ((acc ++ hs).map Prod.fst).Nodup →
      ((hs.foldl (cwStep prices total) acc).map Prod.snd).sum =
        (acc.map Prod.snd).sum +
        (hs.map (fun p =>
          if p.1 = CASH_TICKER then p.2
          else
            match prices p.1 with
            | some px => p.2 * px
            | none => 0)).sum / total := by
  intro hs
  induction hs with
  | nil => intro acc _; simp
  | cons p hs ih =>
    intro acc h
    have hfresh : p.1 ∉ acc.map Prod.fst := by
      intro hm
      have hdisj := List.disjoint_of_nodup_append (by simpa using h)
      exact hdisj hm (by simp)
    have hkeys : ∀ (v : ℚ), (((acc ++ [(p.1, v)]) ++ hs).map Prod.fst).Nodup := by
      intro v
      simpa using h
    have hkeys2 : ((acc ++ hs).map Prod.fst).Nodup := by
      have hsub : List.Sublist ((acc ++ hs).map Prod.fst) ((acc ++ p :: hs).map Prod.fst) :=
        List.Sublist.map Prod.fst (List.Sublist.append_left (List.sublist_cons_self p hs) acc)
      exact List.Nodup.sublist hsub h
    rw [List.foldl_cons]
    simp only [List.map_cons, List.sum_cons]
    by_cases hc : p.1 = CASH_TICKER
    · have hstep : cwStep prices total acc p = acc ++ [(p.1, p.2 / total)] := by
        rw [cwStep, if_pos hc, if_pos ht]
        exact dinsert_of_not_mem hfresh
      have hgp : (if p.1 = CASH_TICKER then p.2
          else
            match prices p.1 with
            | some px => p.2 * px
            | none => 0) = p.2 := by
        rw [if_pos hc]
      rw [hstep, ih _ (hkeys _), hgp, List.map_append, List.sum_append]
      simp only [List.map_cons, List.map_nil, List.sum_cons, List.sum_nil]
      rw [add_div]
      ring
    · rcases hp : prices p.1 with _ | px
      · have hstep : cwStep prices total acc p = acc := by
          rw [cwStep, if_neg hc, hp]
        have hgp : (if p.1 = CASH_TICKER then p.2
            else
              match (none : Option ℚ) with
              | some px => p.2 * px
              | none => 0) = 0 := by
          rw [if_neg hc]
        rw [hstep, ih _ hkeys2, hgp, add_div]
        ring
      · have hstep : cwStep prices total acc p = acc ++ [(p.1, p.2 * px / total)] := by
          rw [cwStep, if_neg hc, hp]
          show (if 0 < total then dinsert p.1 (p.2 * px / total) acc else acc) = _
          rw [if_pos ht]
          exact dinsert_of_not_mem hfresh
        have hgp : (if p.1 = CASH_TICKER then p.2
            else
              match (some px : Option ℚ) with
              | some px => p.2 * px
              | none => 0) = p.2 * px := by
          rw [if_neg hc]
        rw [hstep, ih _ (hkeys _), hgp, List.map_append, List.sum_append]
        simp only [List.map_cons, List.map_nil, List.sum_cons, List.sum_nil]
        rw [add_div]
        ring

/-- Claim C9: for every holdings map (distinct keys, as a Python dict
guarantees) and price series, if the computed total is positive the
current weight vector (cash weight plus the weights of the instruments
with a present price) sums to 1 within `1e-9` (exactly 1 in rational
arithmetic); and if the total is not positive, every stored weight is 0. -/
theorem c9_current_weights_sum (holdings : List (String × ℚ))
    (prices : String → Option ℚ) (hnd : (holdings.map Prod.fst).Nodup) :
    (0 < (current_weights holdings prices).1 →
      |(((current_weights holdings prices).2).map Prod.snd).sum - 1| ≤ 1/1000000000) ∧
    ((current_weights holdings prices).1 ≤ 0 →
      ∀ v ∈ ((current_weights holdings prices).2).map Prod.snd, v = 0) := by
  constructor
  · intro ht
    have ht2 : 0 < estimate_portfolio_value_usd holdings prices := ht
    have hsum : (((current_weights holdings prices).2).map Prod.snd).sum = 1 := by
      show ((holdings.foldl (cwStep prices (estimate_portfolio_value_usd holdings prices)) []).map
        Prod.snd).sum = 1
      rw [cw_fold_sum prices _ ht2 holdings [] (by simpa using hnd)]
      rw [← estimate_eq_sum holdings prices]
      simp only [List.map_nil, List.sum_nil, zero_add]
      exact div_self (ne_of_gt ht2)
    rw [hsum]
    norm_num
  · intro ht v hv
    have ht2 : ¬ 0 < estimate_portfolio_value_usd holdings prices := not_lt.mpr ht
    exact cw_fold_zero prices _ ht2 holdings [] (by simp) v hv

/-- Witness for C9: two holdings lines, one priced instrument; the total
is 100, the weights `1/2` and `1/2` sum to exactly 1. -/
theorem c9_witness :
    (([("CASH", (50:ℚ)), ("A", 2)].map Prod.fst).Nodup) ∧
    0 < (current_weights [("CASH", (50:ℚ)), ("A", 2)]
      (fun t => if t = "A" then some 25 else none)).1 ∧
    |(((current_weights [("CASH", (50:ℚ)), ("A", 2)]
        (fun t => if t = "A" then some 25 else none)).2).map Prod.snd).sum - 1| ≤
      1/1000000000 := by
  have hnd : (([("CASH", (50:ℚ)), ("A", 2)].map Prod.fst).Nodup) := by decide
  have hpos : 0 < (current_weights [("CASH", (50:ℚ)), ("A", 2)]
      (fun t => if t = "A" then some 25 else none)).1 := by
    norm_num [current_weights, estimate_portfolio_value_usd, CASH_TICKER]
    decide
  exact ⟨hnd, hpos, (c9_current_weights_sum _ _ hnd).1 hpos⟩

/-! ### Rounding lemmas -/

theorem floor_le_roundHalfEven (q : ℚ) : ⌊q⌋ ≤ roundHalfEven q := by
  unfold roundHalfEven
  split_ifs <;> omega

theorem roundHalfEven_le_ceil (q : ℚ) : roundHalfEven q ≤ ⌈q⌉ := by
  have hfc : ⌊q⌋ ≤ ⌈q⌉ := Int.floor_le_ceil q
  unfold roundHalfEven
  split_ifs with h1 h2 h3
  · exact hfc
  · have hlt : (⌊q⌋ : ℚ) < q := by linarith
    have := Int.lt_ceil.mpr hlt
    omega
  · exact hfc
  · have hr : q - ⌊q⌋ = 1/2 := le_antisymm (not_lt.mp h2) (not_lt.mp h1)
    have hlt : (⌊q⌋ : ℚ) < q := by linarith
    have := Int.lt_ceil.mpr hlt
    omega

theorem le_pyRound (c d : ℚ) (k : ℤ) (hk : (k : ℚ) = c * 100) (h : c ≤ d) :
    c ≤ pyRound 100 d := by
  have h1 : (k : ℚ) ≤ d * 100 := by
    rw [hk]
    nlinarith
  have h2 : k ≤ ⌊d * 100⌋ := Int.le_floor.mpr h1
  have h3 : (k : ℚ) ≤ (roundHalfEven (d * 100) : ℚ) := by
    exact_mod_cast le_trans h2 (floor_le_roundHalfEven _)
  have hc : c = (k : ℚ) / 100 := by
    rw [hk]
    ring
  unfold pyRound
  rw [hc]
  push_cast
  have h100 : (0:ℚ) ≤ 100 := by norm_num
  exact div_le_div_of_nonneg_right h3 h100

theorem pyRound_le (c d : ℚ) (k : ℤ) (hk : (k : ℚ) = c * 100) (h : d ≤ c) :
    pyRound 100 d ≤ c := by
  have h1 : d * 100 ≤ (k : ℚ) := by
    rw [hk]
    nlinarith
  have h2 : ⌈d * 100⌉ ≤ k := Int.ceil_le.mpr h1
  have h3 : (roundHalfEven (d * 100) : ℚ) ≤ (k : ℚ) := by
    exact_mod_cast le_trans (roundHalfEven_le_ceil _) h2
  have hc : c = (k : ℚ) / 100 := by
    rw [hk]
    ring
  unfold pyRound
  rw [hc]
  push_cast
  have h100 : (0:ℚ) ≤ 100 := by norm_num
  exact div_le_div_of_nonneg_right h3 h100

theorem abs_pyRound_ge {m d : ℚ} (k : ℤ) (hk : (k : ℚ) = m * 100) (h : m ≤ |d|) :
    m ≤ |pyRound 100 d| := by
  rcases le_or_lt m 0 with hm | hm
  · exact le_trans hm (abs_nonneg _)
  · rcases le_abs.mp h with h1 | h1
    · exact le_trans (le_pyRound m d k hk h1) (le_abs_self _)
    · have h2 : pyRound 100 d ≤ -m :=
        pyRound_le (-m) d (-k) (by push_cast [hk]; ring) (by linarith)
      calc m ≤ -(pyRound 100 d) := by linarith
        _ ≤ |pyRound 100 d| := neg_le_abs _

/-! ### Stable sort: pairwise order with tie-breaking -/

theorem pairwise_orderedInsert_stable {α : Type} (r : α → α → Prop) [DecidableRel r]
    (q : α → α → Prop) (tot : ∀ a b, ¬ r a b → r b a)
    (htr : ∀ a b c, r a b → r b c → r a c) (x : α) :
    ∀ (S : List α), S.Pairwise (fun a b => r a b ∧ (r b a → q a b)) →
      (∀ y ∈ S, q x y) →
      (List.orderedInsert r x S).Pairwise (fun a b => r a b ∧ (r b a → q a b)) := by
  intro S
  induction S with
  | nil =>
    intro _ _
    simp [List.orderedInsert]
  | cons y S ih =>
    intro hS hq
    rw [List.orderedInsert]
    by_cases h : r x y
    · rw [if_pos h]
      refine List.Pairwise.cons ?_ hS
      intro z hz
      rcases List.mem_cons.mp hz with rfl | hz2
      · exact ⟨h, fun _ => hq z (List.mem_cons_self _ _)⟩
      · have hyz : r y z := ((List.pairwise_cons.mp hS).1 z hz2).1
        exact ⟨htr x y z h hyz, fun _ => hq z (List.mem_cons_of_mem _ hz2)⟩
    · rw [if_neg h]
      have hyS := (List.pairwise_cons.mp hS).1
      have hS2 := (List.pairwise_cons.mp hS).2
      refine List.Pairwise.cons ?_ (ih hS2 (fun z hz => hq z (List.mem_cons_of_mem _ hz)))
      intro z hz
      rcases (List.mem_orderedInsert r).mp hz with hzx | hz2
      · rw [hzx]
        exact ⟨tot x y h, fun hxy => absurd hxy h⟩
      · exact hyS z hz2

theorem pairwise_insertionSort_stable {α : Type} (r : α → α → Prop) [DecidableRel r]
    (q : α → α → Prop) (tot : ∀ a b, ¬ r a b → r b a)
    (htr : ∀ a b c, r a b → r b c → r a c) :
    ∀ (l : List α), l.Pairwise q →
      (List.insertionSort r l).Pairwise (fun a b => r a b ∧ (r b a → q a b)) := by
  intro l
  induction l with
  | nil =>
    intro _
    simp
  | cons x l ih =>
    intro hl
    rw [List.insertionSort]
    refine pairwise_orderedInsert_stable r q tot htr x _ (ih (List.pairwise_cons.mp hl).2) ?_
    intro y hy
    exact (List.pairwise_cons.mp hl).1 y ((List.mem_insertionSort r).mp hy)

theorem tradeLe_total : ∀ a b, ¬ tradeLe a b → tradeLe b a := by
  intro a b h
  unfold tradeLe at h ⊢
  rcases lt_trichotomy (tradeGroup a) (tradeGroup b) with h1 | h1 | h1
  · exact absurd (Or.inl h1) h
  · refine Or.inr ⟨h1.symm, ?_⟩
    by_contra h2
    exact h (Or.inr ⟨h1, le_of_not_le h2⟩)
  · exact Or.inl h1

theorem tradeLe_trans : ∀ a b c, tradeLe a b → tradeLe b c → tradeLe a c := by
  intro a b c h1 h2
  unfold tradeLe at h1 h2 ⊢
  rcases h1 with h1 | ⟨h1e, h1le⟩ <;> rcases h2 with h2 | ⟨h2e, h2le⟩
  · exact Or.inl (lt_trans h1 h2)
  · exact Or.inl (h2e ▸ h1)
  · exact Or.inl (h1e ▸ h2)
  · exact Or.inr ⟨h1e.trans h2e, le_trans h2le h1le⟩

theorem mkTrade_spec {cw target_w : List (String × ℚ)} {total m : ℚ}
    {prices : String → Option ℚ} {t : String} {tr : Trade}
    (h : mkTrade cw target_w total prices m t = some tr) :
    tr.ticker = t ∧ (∃ px, prices t = some px ∧ 0 < px) ∧
      ∃ d, m ≤ |d| ∧ tr.delta_usd = pyRound 100 d := by
  unfold mkTrade at h
  by_cases h1 : |((dget target_w t).getD 0 - (dget cw t).getD 0) * total| < m
  · rw [if_pos h1] at h
    cases h
  · rw [if_neg h1] at h
    rcases hp : prices t with _ | px
    · rw [hp] at h
      cases h
    · rw [hp] at h
      have h4 : (if px ≤ 0 then none
          else some (⟨t,
            if 0 < ((dget target_w t).getD 0 - (dget cw t).getD 0) * total
              then "BUY" else "SELL",
            pyRound 100 (((dget target_w t).getD 0 - (dget cw t).getD 0) * total),
            pyRound 100 px,
            pyRound 10000
              (((dget target_w t).getD 0 - (dget cw t).getD 0) * total / px)⟩ : Trade)) =
          some tr := h
      by_cases h2 : px ≤ 0
      · rw [if_pos h2] at h4
        cases h4
      · rw [if_neg h2] at h4
        have h3 := Option.some.inj h4
        refine ⟨?_, ⟨px, rfl, lt_of_not_le h2⟩,
          ((dget target_w t).getD 0 - (dget cw t).getD 0) * total,
          not_lt.mp h1, ?_⟩
        · rw [← h3]
        · rw [← h3]

/-- Claim C6: every instruction emitted by `generate_trade_list` is for a
non-cash ticker with a present, strictly positive price, and its recorded
dollar delta is at least `min_trade_usd` in magnitude whenever
`min_trade_usd` is a whole number of cents (the program always uses the
default `25.0`; the recorded delta is rounded to cents, so a threshold
not on the cent grid could be undercut by the rounding).  In particular
an instrument without a usable price never yields an instruction. -/
theorem c6_trade_guards (holdings : List (String × ℚ)) (prices : String → Option ℚ)
    (target_w : List (String × ℚ)) (m : ℚ) (k : ℤ) (hk : (k : ℚ) = m * 100)
    (tr : Trade) (htr : tr ∈ (generate_trade_list holdings prices target_w m).2.2) :
    tr.ticker ≠ CASH_TICKER ∧ (∃ px, prices tr.ticker = some px ∧ 0 < px) ∧
      m ≤ |tr.delta_usd| := by
  have htr2 : tr ∈ (List.insertionSort (fun a b : String => a ≤ b)
      ((((current_weights holdings prices).2.map Prod.fst ++
          target_w.map Prod.fst).dedup).filter
        (fun t => decide (t ≠ CASH_TICKER)))).filterMap
      (mkTrade (current_weights holdings prices).2 target_w
        (current_weights holdings prices).1 prices m) :=
    (List.mem_insertionSort tradeLe).mp htr
  rcases List.mem_filterMap.mp htr2 with ⟨t, ht, heq⟩
  obtain ⟨hticker, ⟨px, hpx, hpos⟩, d, hd, hdelta⟩ := mkTrade_spec heq
  have htm : t ∈ (((current_weights holdings prices).2.map Prod.fst ++
      target_w.map Prod.fst).dedup).filter (fun t => decide (t ≠ CASH_TICKER)) :=
    (List.mem_insertionSort (fun a b : String => a ≤ b)).mp ht
  have hnotcash : t ≠ CASH_TICKER :=
    of_decide_eq_true (List.mem_filter.mp htm).2
  refine ⟨hticker ▸ hnotcash, ⟨px, hticker ▸ hpx, hpos⟩, ?_⟩
  rw [hdelta]
  exact abs_pyRound_ge k hk hd

/-- Claim C5: in every trade list produced by `generate_trade_list`, all
SELL instructions precede all BUY instructions; within a group the
instructions are in descending order of the absolute dollar size of the
instruction, and two instructions of the same group with equal absolute
dollar size appear in ascending ticker order (stability of the sort over
the ticker-sorted candidate loop). -/
theorem c5_trade_order (holdings : List (String × ℚ)) (prices : String → Option ℚ)
    (target_w : List (String × ℚ)) (m : ℚ) :
    ((generate_trade_list holdings prices target_w m).2.2).Pairwise
      (fun a b => ¬(a.action = "BUY" ∧ b.action = "SELL") ∧
        (a.action = b.action → |b.delta_usd| ≤ |a.delta_usd|) ∧
        (a.action = b.action → |a.delta_usd| = |b.delta_usd| → a.ticker < b.ticker)) := by
  have hticks :
      ((((current_weights holdings prices).2.map Prod.fst ++
          target_w.map Prod.fst).dedup).filter
        (fun t => decide (t ≠ CASH_TICKER))).Nodup :=
    List.Nodup.filter _ (List.nodup_dedup _)
  have hsorted : (List.insertionSort (fun a b : String => a ≤ b)
      ((((current_weights holdings prices).2.map Prod.fst ++
          target_w.map Prod.fst).dedup).filter
        (fun t => decide (t ≠ CASH_TICKER)))).Sorted (fun a b : String => a ≤ b) :=
    List.sorted_insertionSort _ _
  have hnodup : (List.insertionSort (fun a b : String => a ≤ b)
      ((((current_weights holdings prices).2.map Prod.fst ++
          target_w.map Prod.fst).dedup).filter
        (fun t => decide (t ≠ CASH_TICKER)))).Nodup :=
    (List.perm_insertionSort _ _).nodup_iff.mpr hticks
  have hlt : (List.insertionSort (fun a b : String => a ≤ b)
      ((((current_weights holdings prices).2.map Prod.fst ++
          target_w.map Prod.fst).dedup).filter
        (fun t => decide (t ≠ CASH_TICKER)))).Sorted (fun a b : String => a < b) :=
    List.Sorted.lt_of_le hsorted hnodup
  have htrades : ((List.insertionSort (fun a b : String => a ≤ b)
      ((((current_weights holdings prices).2.map Prod.fst ++
          target_w.map Prod.fst).dedup).filter
        (fun t => decide (t ≠ CASH_TICKER)))).filterMap
      (mkTrade (current_weights holdings prices).2 target_w
        (current_weights holdings prices).1 prices m)).Pairwise
      (fun a b : Trade => a.ticker < b.ticker) := by
    refine List.Pairwise.filterMap _ ?_ hlt
    intro t t2 hlt2 tr htr tr2 htr2
    have e1 : tr.ticker = t := (mkTrade_spec (Option.mem_def.mp htr)).1
    have e2 : tr2.ticker = t2 := (mkTrade_spec (Option.mem_def.mp htr2)).1
    rw [e1, e2]
    exact hlt2
  have key := pairwise_insertionSort_stable tradeLe
    (fun a b : Trade => a.ticker < b.ticker) tradeLe_total tradeLe_trans _ htrades
  refine List.Pairwise.imp ?_ key
  intro a b hab
  obtain ⟨hle, hstab⟩ := hab
  refine ⟨?_, ?_, ?_⟩
  · rintro ⟨ha, hb⟩
    have hga : tradeGroup a = 1 := by
      rw [tradeGroup, ha]
      simp
    have hgb : tradeGroup b = 0 := by
      rw [tradeGroup, hb]
      simp
    rcases hle with h | ⟨h, _⟩ <;> omega
  · intro hab2
    have hg : tradeGroup a = tradeGroup b := by
      rw [tradeGroup, tradeGroup, hab2]
    rcases hle with h | ⟨_, h⟩
    · omega
    · exact h
  · intro hab2 habs
    have hg : tradeGroup a = tradeGroup b := by
      rw [tradeGroup, tradeGroup, hab2]
    exact hstab (Or.inr ⟨hg.symm, le_of_eq habs⟩)

/-- Witness for C5: the order property at the spec's Scenario C input. -/
theorem c5_witness :
    ((generate_trade_list [("CASH", (1000:ℚ))]
        (fun t => if t = "AAPL" then some 100 else none)
        [("AAPL", 1/2), ("CASH", 1/2)] 25).2.2).Pairwise
      (fun a b => ¬(a.action = "BUY" ∧ b.action = "SELL") ∧
        (a.action = b.action → |b.delta_usd| ≤ |a.delta_usd|) ∧
        (a.action = b.action → |a.delta_usd| = |b.delta_usd| → a.ticker < b.ticker)) :=
  c5_trade_order [("CASH", (1000:ℚ))]
    (fun t => if t = "AAPL" then some 100 else none) [("AAPL", 1/2), ("CASH", 1/2)] 25

theorem c6_witness_trades :
    (generate_trade_list [("CASH", (1000:ℚ))]
        (fun t => if t = "AAPL" then some 100 else none)
        [("AAPL", 1/2), ("CASH", 1/2)] 25).2.2 =
      [⟨"AAPL", "BUY", 500, 100, 5⟩] := by
  have hcw : current_weights [("CASH", (1000:ℚ))]
      (fun t => if t = "AAPL" then some 100 else none) = (1000, [("CASH", 1)]) := by
    simp only [current_weights, estimate_portfolio_value_usd, List.foldl_cons,
      List.foldl_nil, cwStep, CASH_TICKER, dinsert]
    norm_num
  have hrhe1 : roundHalfEven (50000:ℚ) = 50000 := by
    unfold roundHalfEven
    norm_num
  have hrhe2 : roundHalfEven (10000:ℚ) = 10000 := by
    unfold roundHalfEven
    norm_num
  have hmk : mkTrade [("CASH", 1)] [("AAPL", 1/2), ("CASH", 1/2)] 1000
      (fun t => if t = "AAPL" then some 100 else none) 25 "AAPL" =
      some ⟨"AAPL", "BUY", 500, 100, 5⟩ := by
    simp only [mkTrade, dget, CASH_TICKER]
    simp
    norm_num [pyRound, hrhe1, hrhe2]
  simp only [generate_trade_list, hcw]
  simp only [List.map_cons, List.map_nil, CASH_TICKER]
  norm_num [List.dedup_cons_of_mem, List.dedup_cons_of_not_mem, List.insertionSort,
    List.orderedInsert]
  simp only [List.filterMap_cons, List.filterMap_nil, hmk, List.insertionSort,
    List.orderedInsert]

/-- Witness for C6 at Scenario C: holdings of 1000 cash, target
`{AAPL: 0.5, CASH: 0.5}`, `price(AAPL) = 100`: one BUY of 500 dollars,
estimated 5 shares; the guards hold for it. -/
theorem c6_witness :
    ((2500:ℚ) = 25 * 100) ∧
    ((⟨"AAPL", "BUY", 500, 100, 5⟩ : Trade) ∈
      (generate_trade_list [("CASH", (1000:ℚ))]
        (fun t => if t = "AAPL" then some 100 else none)
        [("AAPL", 1/2), ("CASH", 1/2)] 25).2.2) ∧
    ((⟨"AAPL", "BUY", 500, 100, 5⟩ : Trade).ticker ≠ CASH_TICKER ∧
      (∃ px, (fun t => if t = "AAPL" then some (100:ℚ) else none)
          (⟨"AAPL", "BUY", 500, 100, 5⟩ : Trade).ticker = some px ∧ 0 < px) ∧
      (25:ℚ) ≤ |(⟨"AAPL", "BUY", 500, 100, 5⟩ : Trade).delta_usd|) := by
  have hmem : (⟨"AAPL", "BUY", 500, 100, 5⟩ : Trade) ∈
      (generate_trade_list [("CASH", (1000:ℚ))]
        (fun t => if t = "AAPL" then some 100 else none)
        [("AAPL", 1/2), ("CASH", 1/2)] 25).2.2 := by
    rw [c6_witness_trades]
    exact List.mem_singleton.mpr rfl
  exact ⟨by norm_num, hmem,
    c6_trade_guards [("CASH", (1000:ℚ))]
      (fun t => if t = "AAPL" then some 100 else none)
      [("AAPL", 1/2), ("CASH", 1/2)] 25 2500 (by norm_num) _ hmem⟩

/-! ### SignalEngine claims -/

/-- Claim C7: whenever the history has fewer than `max(Lm, Lv) + 5` rows
(column filtering never changes the row count), `compute_signals` returns
the empty signal table as an ordinary value.  The hypothesis `1 ≤ nrows`
records that pandas would raise an IndexError at `ffill().iloc[-1]` on a
zero-row frame; the orchestrator never passes one (it builds the no-data
snapshot instead). -/
theorem c7_insufficient_history (Lm Lv : ℕ) (pmin : ℚ) (F : Frame)
    (hrows : 1 ≤ F.nrows) (hshort : F.nrows < max Lm Lv + 5) :
    compute_signals Lm Lv pmin F = [] := by
  unfold compute_signals
  by_cases h0 : (step1 pmin F).length = 0
  · rw [if_pos h0]
  · rw [if_neg h0, if_pos hshort]

/-- Witness for C7: a three-row history with lookbacks 1 and 1 needs
`max(1,1) + 5 = 6` rows and yields the empty table. -/
theorem c7_witness :
    (1 ≤ (Frame.mk 3 [("AA", [some 10, some 10, some 10])]).nrows ∧
      (Frame.mk 3 [("AA", [some 10, some 10, some 10])]).nrows < max 1 1 + 5) ∧
    compute_signals 1 1 5 (Frame.mk 3 [("AA", [some 10, some 10, some 10])]) = [] :=
  ⟨⟨by decide, by decide⟩,
   c7_insufficient_history 1 1 5 (Frame.mk 3 [("AA", [some 10, some 10, some 10])])
     (by decide) (by decide)⟩

/-- Claim C3 counterexample: an instrument whose only missing value lies
before the window `[now - max(Lm,Lv), now]` (here: a `none` in the first
of four rows, window the last two rows, latest forward-filled price 10 at
floor 5) is predicted by the claim to survive step 1, but the code's
`dropna(axis=1, how="any")` removes every column containing any missing
value anywhere, so step 1 returns the empty column set. -/
theorem c3_counterexample :
    step1 5 (Frame.mk 4 [("AA", [none, some 10, some 10, some 10])]) = [] ∧
    lastFfill [none, some 10, some 10, some 10] = some 10 ∧
    (5:ℚ) ≤ 10 ∧
    windowComplete 1 1 [none, some 10, some 10, some 10] = true := by
  refine ⟨?_, rfl, by norm_num, rfl⟩
  decide

/-- Claim C3 amended: step 1 keeps a column if and only if its
forward-filled latest price exists and is at least `Pmin` and the column
contains no missing value anywhere in its history — not merely in the
window `[now - max(Lm,Lv), now]`. -/
theorem c3_amended_step1 (pmin : ℚ) (F : Frame) (t : String) (c : List (Option ℚ)) :
    (t, c) ∈ step1 pmin F ↔
      (t, c) ∈ F.cols ∧ (∃ p, lastFfill c = some p ∧ pmin ≤ p) ∧
        c.all Option.isSome = true := by
  unfold step1
  rw [List.mem_filter, List.mem_filter]
  constructor
  · rintro ⟨⟨hmem, h1⟩, h2⟩
    refine ⟨hmem, ?_, h2⟩
    dsimp only at h1
    rcases hl : lastFfill c with _ | p
    · rw [hl] at h1
      simp at h1
    · rw [hl] at h1
      exact ⟨p, rfl, of_decide_eq_true h1⟩
  · rintro ⟨hmem, ⟨p, hp, hle⟩, h2⟩
    refine ⟨⟨hmem, ?_⟩, h2⟩
    dsimp only
    rw [hp]
    exact decide_eq_true hle

/-- Witness for C3 (amended) at a concrete column. -/
theorem c3_witness :
    (("AA", [some (10:ℚ)]) ∈ step1 5 (Frame.mk 1 [("AA", [some 10])]) ↔
      ("AA", [some (10:ℚ)]) ∈ (Frame.mk 1 [("AA", [some 10])]).cols ∧
        (∃ p, lastFfill [some (10:ℚ)] = some p ∧ 5 ≤ p) ∧
        ([some (10:ℚ)] : List (Option ℚ)).all Option.isSome = true) :=
  c3_amended_step1 5 (Frame.mk 1 [("AA", [some 10])]) "AA" [some 10]

theorem strictMono_mul_abs : StrictMono (fun s : ℝ => s * |s|) := by
  intro x y hxy
  rcases le_or_lt 0 x with hx | hx
  · have hy : 0 < y := lt_of_le_of_lt hx hxy
    simp only [abs_of_nonneg hx, abs_of_pos hy]
    nlinarith
  · rcases le_or_lt 0 y with hy | hy
    · have h1 : x * |x| < 0 := by
        rw [abs_of_neg hx]
        nlinarith
      have h2 : (0:ℝ) ≤ y * |y| := by
        rw [abs_of_nonneg hy]
        positivity
      simp only []
      linarith
    · simp only [abs_of_neg hx, abs_of_neg hy]
      nlinarith

theorem sortKey_cast (r : SignalRow) :
    ((sortKey r : ℚ) : ℝ) =
      ((r.momentum : ℝ) * |(r.momentum : ℝ)|) / (r.varAnn : ℝ) := by
  unfold sortKey
  rcases lt_or_le r.momentum 0 with hm | hm
  · rw [if_pos hm]
    have hmR : ((r.momentum : ℚ) : ℝ) < 0 := by exact_mod_cast hm
    rw [abs_of_neg hmR]
    push_cast
    ring
  · rw [if_neg (not_lt.mpr hm)]
    have hmR : (0:ℝ) ≤ ((r.momentum : ℚ) : ℝ) := by exact_mod_cast hm
    rw [abs_of_nonneg hmR]
    push_cast
    ring

theorem mul_abs_score (r : SignalRow) (hv : 0 < r.varAnn) :
    score r * |score r| =
      ((r.momentum : ℝ) * |(r.momentum : ℝ)|) / (r.varAnn : ℝ) := by
  unfold score
  have hvR : (0:ℝ) < (r.varAnn : ℝ) := by exact_mod_cast hv
  have hs : (0:ℝ) < Real.sqrt (r.varAnn : ℝ) := Real.sqrt_pos.mpr hvR
  rw [abs_div, abs_of_pos hs]
  have hexp : (r.momentum : ℝ) / Real.sqrt (r.varAnn : ℝ) *
      (|(r.momentum : ℝ)| / Real.sqrt (r.varAnn : ℝ)) =
      (r.momentum : ℝ) * |(r.momentum : ℝ)| /
        (Real.sqrt (r.varAnn : ℝ) * Real.sqrt (r.varAnn : ℝ)) := by
    ring
  rw [hexp, Real.mul_self_sqrt (le_of_lt hvR)]

theorem sortKey_le_iff (a b : SignalRow) (ha : 0 < a.varAnn) (hb : 0 < b.varAnn) :
    (sortKey a ≤ sortKey b ↔ score a ≤ score b) := by
  constructor
  · intro h
    have hR : ((sortKey a : ℚ) : ℝ) ≤ ((sortKey b : ℚ) : ℝ) := by exact_mod_cast h
    rw [sortKey_cast a, sortKey_cast b, ← mul_abs_score a ha, ← mul_abs_score b hb] at hR
    exact strictMono_mul_abs.le_iff_le.mp hR
  · intro h
    have hR : score a * |score a| ≤ score b * |score b| :=
      strictMono_mul_abs.le_iff_le.mpr h
    rw [mul_abs_score a ha, mul_abs_score b hb, ← sortKey_cast a, ← sortKey_cast b] at hR
    exact_mod_cast hR

theorem sampleVar_nonneg (l : List ℚ) (h2 : 2 ≤ l.length) : 0 ≤ sampleVar l := by
  unfold sampleVar
  apply div_nonneg
  · apply List.sum_nonneg
    intro x hx
    rcases List.mem_map.mp hx with ⟨r, _, hr⟩
    rw [← hr]
    positivity
  · have : (2:ℚ) ≤ (l.length : ℚ) := by exact_mod_cast h2
    linarith

theorem mkSignalRow_varAnn_pos {Lm Lv : ℕ} {tc : String × List (Option ℚ)} {r : SignalRow}
    (h : mkSignalRow Lm Lv tc = some r) : 0 < r.varAnn := by
  unfold mkSignalRow at h
  by_cases h1 : ((dailyRets (tc.2.map (fun o => o.getD 0))).drop
      ((dailyRets (tc.2.map (fun o => o.getD 0))).length - Lv)).length < 2
  · rw [if_pos h1] at h
    cases h
  · rw [if_neg h1] at h
    by_cases h2 : sampleVar ((dailyRets (tc.2.map (fun o => o.getD 0))).drop
        ((dailyRets (tc.2.map (fun o => o.getD 0))).length - Lv)) = 0
    · rw [if_pos h2] at h
      cases h
    · rw [if_neg h2] at h
      have h3 := Option.some.inj h
      rw [← h3]
      have hnn := sampleVar_nonneg _ (not_lt.mp h1)
      have hpos := lt_of_le_of_ne hnn (Ne.symm h2)
      show 0 < 252 * sampleVar _
      linarith

instance instIsTotalSortKeyDesc :
    IsTotal SignalRow (fun a b => sortKey b ≤ sortKey a) :=
  ⟨fun a b => le_total (sortKey b) (sortKey a)⟩

instance instIsTransSortKeyDesc :
    IsTrans SignalRow (fun a b => sortKey b ≤ sortKey a) :=
  ⟨fun _ _ _ h1 h2 => le_trans h2 h1⟩

/-- Claim C4 amended: the signal table is sorted in descending order of
the (real-valued) score.  The claimed ticker-ascending ordering of rows
with exactly equal scores is not implemented (see `c4_counterexample`);
the code applies no secondary sort key, so no particular tie order is
asserted. -/
theorem c4_amended_sorted (Lm Lv : ℕ) (pmin : ℚ) (F : Frame) :
    (compute_signals Lm Lv pmin F).Pairwise (fun a b => score b ≤ score a) := by
  unfold compute_signals
  by_cases h0 : (step1 pmin F).length = 0
  · rw [if_pos h0]
    exact List.Pairwise.nil
  · rw [if_neg h0]
    by_cases h1 : F.nrows < max Lm Lv + 5
    · rw [if_pos h1]
      exact List.Pairwise.nil
    · rw [if_neg h1]
      have hsorted := List.sorted_insertionSort
        (fun a b : SignalRow => sortKey b ≤ sortKey a)
        ((step1 pmin F).filterMap (mkSignalRow Lm Lv))
      refine List.Pairwise.imp_of_mem ?_ hsorted
      intro a b hma hmb hle
      have hva : 0 < a.varAnn := by
        rcases List.mem_filterMap.mp
          ((List.mem_insertionSort (fun a b : SignalRow => sortKey b ≤ sortKey a)).mp hma)
          with ⟨tc, _, heq⟩
        exact mkSignalRow_varAnn_pos heq
      have hvb : 0 < b.varAnn := by
        rcases List.mem_filterMap.mp
          ((List.mem_insertionSort (fun a b : SignalRow => sortKey b ≤ sortKey a)).mp hmb)
          with ⟨tc, _, heq⟩
        exact mkSignalRow_varAnn_pos heq
      exact (sortKey_le_iff b a hvb hva).mp hle

/-- The price column used in the C4 counterexample: seven rows, last
price 6, previous 2, nonzero return variance in the last two returns. -/
def c4col : List (Option ℚ) := [some 1, some 1, some 1, some 1, some 1, some 2, some 6]

theorem c4_mkRow_ZZ : mkSignalRow 2 2 ("ZZ", c4col) = some ⟨"ZZ", 2, 126⟩ := by
  simp only [mkSignalRow, dailyRets, sampleVar, c4col]
  norm_num

theorem c4_mkRow_AA : mkSignalRow 2 2 ("AA", c4col) = some ⟨"AA", 2, 126⟩ := by
  simp only [mkSignalRow, dailyRets, sampleVar, c4col]
  norm_num

/-- Claim C4 counterexample: two instruments with identical price series
(so exactly equal scores), in the input column order `ZZ` before `AA`.
The output keeps them in that order, which is not ascending by
instrument identifier, refuting the claimed tie-break rule. -/
theorem c4_counterexample :
    compute_signals 2 2 1 (Frame.mk 7 [("ZZ", c4col), ("AA", c4col)]) =
      [⟨"ZZ", 2, 126⟩, ⟨"AA", 2, 126⟩] ∧
    score ⟨"ZZ", 2, 126⟩ = score ⟨"AA", 2, 126⟩ ∧
    ¬ (("ZZ" : String) < "AA") := by
  refine ⟨?_, rfl, by rw [String.lt_iff_toList_lt]; decide⟩
  have hstep : step1 1 (Frame.mk 7 [("ZZ", c4col), ("AA", c4col)]) =
      [("ZZ", c4col), ("AA", c4col)] := by
    decide
  unfold compute_signals
  rw [hstep]
  rw [if_neg (by norm_num : ¬ ([("ZZ", c4col), ("AA", c4col)] :
    List (String × List (Option ℚ))).length = 0)]
  rw [if_neg (by norm_num : ¬ (Frame.mk 7 [("ZZ", c4col), ("AA", c4col)]).nrows < max 2 2 + 5)]
  simp only [List.filterMap_cons, List.filterMap_nil, c4_mkRow_ZZ, c4_mkRow_AA]
  simp only [List.insertionSort, List.orderedInsert]
  have hkeys : sortKey ⟨"AA", 2, 126⟩ = sortKey ⟨"ZZ", 2, 126⟩ := rfl
  rw [if_pos (le_of_eq hkeys)]

/-! ### Orchestrator -/

/-- Claim C8: `run_weekly_recommendation` persists exactly one snapshot on
every path (the second component collects the `save_recommendation`
calls), and when the fetched price frame is empty (either axis of length
zero) the persisted payload is the no-data snapshot: timestamp plus the
fixed error tag, with no selection and no trades (the `noData`
constructor carries nothing else), and the run returns normally. -/
theorem c8_orchestrator (univ : List String) (top_n : ℕ) (msw : ℚ)
    (holdings : List (String × ℚ)) (ts : String) (prices : Frame) :
    (run_weekly_recommendation univ top_n msw holdings ts prices).2 =
      [(run_weekly_recommendation univ top_n msw holdings ts prices).1] ∧
    ((prices.nrows = 0 ∨ prices.cols.length = 0) →
      (run_weekly_recommendation univ top_n msw holdings ts prices).1 =
        Payload.noData ts NO_DATA_ERROR) := by
  unfold run_weekly_recommendation
  by_cases h : prices.nrows = 0 ∨ prices.cols.length = 0
  · rw [if_pos h]
    exact ⟨rfl, fun _ => rfl⟩
  · rw [if_neg h]
    exact ⟨rfl, fun h2 => absurd h2 h⟩

/-- Witness for C8 at an empty fetched frame: one snapshot is persisted
and it is the no-data payload. -/
theorem c8_witness :
    ((Frame.mk 0 ([] : List (String × List (Option ℚ)))).nrows = 0 ∨
      (Frame.mk 0 ([] : List (String × List (Option ℚ)))).cols.length = 0) ∧
    (run_weekly_recommendation ["AAPL"] 8 (1/5) [("CASH", 10000)] "t0"
        (Frame.mk 0 [])).2 =
      [(run_weekly_recommendation ["AAPL"] 8 (1/5) [("CASH", 10000)] "t0"
        (Frame.mk 0 [])).1] ∧
    (run_weekly_recommendation ["AAPL"] 8 (1/5) [("CASH", 10000)] "t0"
        (Frame.mk 0 [])).1 = Payload.noData "t0" NO_DATA_ERROR := by
  refine ⟨Or.inl rfl, ?_, ?_⟩
  · exact (c8_orchestrator ["AAPL"] 8 (1/5) [("CASH", 10000)] "t0" (Frame.mk 0 [])).1
  · exact (c8_orchestrator ["AAPL"] 8 (1/5) [("CASH", 10000)] "t0" (Frame.mk 0 [])).2
      (Or.inl rfl)
